/-
Verification of the git-theta merge driver, utilities and ia3 update kind.

Shallow embedding of:
  src/git_theta/scripts/git_theta_merge.py  (infer_state, CommandValidator,
    the interactive merge loop, main's env-var dispatch)
  src/git_theta/utils.py  (DiffState, EnvVarConstants, flatten, unflatten,
    is_valid_oid, Trie)
  src/git_theta/updates/ia3.py  (IA3Update.calculate_update / apply_update)

Python dicts are modelled as association lists with distinct keys (insertion
ordered, as in CPython); `None`-able values as `Option`; numpy float arrays
as rational-valued tensors (exact arithmetic; every numeric fact proved is
exact, hence holds a fortiori within any nonnegative (atol, rtol)).
-/
import Mathlib

namespace GitTheta

/-! ### DiffState and infer_state (git_theta_merge.py lines 30-52, utils.py 43-53) -/

/-- The members of `utils.DiffState` (the HTML description strings are
irrelevant to control flow and omitted). -/
inductive DiffState where
  | EQUAL
  | CHANGED_A
  | CHANGED_B
  | CHANGED_BOTH
  | DELETED_A
  | DELETED_B
  | DELETED_BOTH
  | ADDED_A
  | ADDED_B
  | ADDED_BOTH
deriving DecidableEq, Repr

/-- `infer_state(ancestor, current, other)` from git_theta_merge.py lines 30-52.
`P` stands for `metadata.ParamMetadata`; Python `==` is modelled by decidable
equality and `is None` by `= none` (a metadata record never compares equal to
`None`, so the two coincide on `Option P`).  The chained comparison
`ancestor == current == other` is `(ancestor == current) and (current == other)`. -/
def infer_state {P : Type} [DecidableEq P] (ancestor current other : Option P) : DiffState :=
  if ancestor = current ∧ current = other then .EQUAL
  else if ancestor = other ∧ current ≠ ancestor then
    (if ancestor = none then .ADDED_A
     else if current = none then .DELETED_A
     else .CHANGED_A)
  else if ancestor = current ∧ current ≠ other then
    (if ancestor = none then .ADDED_B
     else if current = none then .DELETED_B
     else .CHANGED_B)
  else if ancestor = none then .DELETED_B
  else .CHANGED_BOTH

/-- The A-side/B-side involution on states used by the spec's symmetry claim:
swap every A-suffixed state with its B-suffixed counterpart, fix the rest. -/
def swapAB : DiffState → DiffState
  | .ADDED_A => .ADDED_B
  | .ADDED_B => .ADDED_A
  | .DELETED_A => .DELETED_B
  | .DELETED_B => .DELETED_A
  | .CHANGED_A => .CHANGED_B
  | .CHANGED_B => .CHANGED_A
  | s => s

/-- The set of input triples on which the code's `infer_state` is not
swap-symmetric (see the theorems on claim C4): a one-sided deletion of an
ancestor-present parameter, or an ancestor-absent parameter present on both
branches. -/
def inferStateAsym {P : Type} [DecidableEq P] (a c o : Option P) : Prop :=
  (a ≠ none ∧ a = c ∧ o = none) ∨ (a ≠ none ∧ a = o ∧ c = none) ∨
    (a = none ∧ c ≠ none ∧ o ≠ none)

/-! ### The interactive merge loop (git_theta_merge.py lines 209-380) -/

/-- One user interaction at the merge prompt, after `prompt_toolkit`
validation (only strings in `available_actions`, which always includes `q`,
reach line 321).  `quit` is the reserved `q` action (line 323); the others
are the possible results of dispatching a merge handler at line 352:
a parameter record, `None` (delete), or `NoResult` (ask again). -/
inductive MergeAction (P : Type) where
  | quit
  | retNone
  | retSome (p : P)
  | retNoResult

/-- The `while merged_parameter is NoResult` loop (lines 300-368) for a single
parameter, reading user actions from a script.  Returns `none` when the script
is exhausted at a prompt (the real program blocks on user input there),
`some (none, _)` when the user quits, and `some (some mp, rest)` when the
parameter is resolved to `mp` (`mp = none` models a handler returning `None`,
i.e. deletion). -/
def resolveParam {P : Type} :
    List (MergeAction P) → Option (Option (Option P) × List (MergeAction P))
  | [] => none
  | .quit :: _ => some (none, [])
  | .retNone :: rest => some (some none, rest)
  | .retSome p :: rest => some (some (some p), rest)
  | .retNoResult :: rest => resolveParam rest

/-- The parameter loop of `merge` (lines 248-380) over the zipped triples
`(name, ancestor.get(name), current.get(name), other.get(name))`, threading
the user script and the accumulated `merged_model`.

Auto-resolution exactly as in the source: `EQUAL` keeps `ancestor_param`
(line 266) and `DELETED_BOTH` skips the name (line 268); every other state
prompts.  A quit exits with status 1 before the manifest is written; when the
loop completes, the merged manifest is written once (line 378) and 0 is
returned.  The result is `(written manifest if any, exit status)`, `none` if
the run blocks forever at a prompt. -/
def mergeRun {P : Type} [DecidableEq P] :
    List (List String × Option P × Option P × Option P) → List (MergeAction P) →
      List (List String × Option P) → Option (Option (List (List String × Option P)) × Nat)
  | [], _, acc => some (some acc, 0)
  | (name, a, c, o) :: rest, script, acc =>
    let st := infer_state a c o
    if st = .EQUAL then mergeRun rest script (acc ++ [(name, a)])
    else if st = .DELETED_BOTH then mergeRun rest script acc
    else
      match resolveParam script with
      | none => none
      | some (none, _) => some (none, 1)
      | some (some mp, script') =>
        mergeRun rest script'
          (acc ++ (match mp with | none => [] | some p => [(name, some p)]))

/-! ### EnvVarConstants and main's dispatch (utils.py 66-74, git_theta_merge.py 383-388) -/

/-- The attributes of class `EnvVarConstants` (utils.py lines 66-74), as
pairs (Python attribute name, environment variable name). -/
def envVarConstants : List (String × String) :=
  [("CHECKPOINT_TYPE", "GIT_THETA_CHECKPOINT_TYPE"),
   ("UPDATE_TYPE", "GIT_THETA_UPDATE_TYPE"),
   ("PARAMETER_ATOL", "GIT_THETA_PARAMETER_ATOL"),
   ("PARAMETER_RTOL", "GIT_THETA_PARAMETER_RTOL"),
   ("LSH_SIGNATURE_SIZE", "GIT_THETA_LSH_SIGNATURE_SIZE"),
   ("LSH_THRESHOLD", "GIT_THETA_LSH_THRESHOLD"),
   ("LSH_POOL_SIZE", "GIT_THETA_LSH_POOL_SIZE"),
   ("MAX_CONCURRENCY", "GIT_THETA_MAX_CONCURRENCY")]

/-- Outcome of `main()` in git_theta_merge.py (lines 383-388). -/
inductive MainOutcome where
  | attributeError
  | manualMergePath
  | mergePath
deriving DecidableEq, Repr

/-- `main()` (git_theta_merge.py lines 383-388): it evaluates
`EnvVarConstants.MANUAL_MERGE`.  Python attribute lookup on the class is
modelled by `List.lookup` in `envVarConstants`; a missing attribute raises
`AttributeError` before either branch can run.  If the attribute existed, a
set, nonempty environment value would select the manual-merge path (the
`EnvVar.__get__` descriptor, utils.py 61-63, is truthy exactly then). -/
def mainDispatch (env : String → Option String) : MainOutcome :=
  match envVarConstants.lookup "MANUAL_MERGE" with
  | none => .attributeError
  | some envName =>
    match env envName with
    | some v => if v ≠ "" then .manualMergePath else .mergePath
    | none => .mergePath

/-! ### Trie (utils.py 167-231) and CommandValidator (git_theta_merge.py 66-89) -/

/-- First-match lookup in an association list; models Python `dict`
subscript/`in` on dictionaries whose keys are distinct. -/
def assocFind {κ β : Type} [DecidableEq κ] : List (κ × β) → κ → Option β
  | [], _ => none
  | (k', v) :: rest, k => if k' = k then some v else assocFind rest k

/-- `d[k] = v` on a Python dict: replace the first binding of `k` in place,
or append a new binding at the end. -/
def assocSet {κ β : Type} [DecidableEq κ] : List (κ × β) → κ → β → List (κ × β)
  | [], k, v => [(k, v)]
  | (k', v') :: rest, k, v =>
    if k' = k then (k, v) :: rest else (k', v') :: assocSet rest k v

/-- `utils.Trie`: `is_word` flag and the `next` children dict (the `char`
field is "only for debugging" and carries no behaviour, so it is omitted). -/
inductive Trie where
  | mk : Bool → List (Char × Trie) → Trie

/-- The `is_word` field. -/
def Trie.isWord : Trie → Bool
  | .mk b _ => b

/-- The `next` children dict. -/
def Trie.next : Trie → List (Char × Trie)
  | .mk _ n => n

/-- `Trie()`: a fresh node. -/
def Trie.empty : Trie := .mk false []

/-- `Trie.insert` (utils.py 175-192). -/
def Trie.insert : Trie → List Char → Trie
  | t, [] => .mk true t.next
  | t, c :: cs =>
    match assocFind t.next c with
    | some u => .mk t.isWord (assocSet t.next c (u.insert cs))
    | none => .mk t.isWord (t.next ++ [(c, Trie.empty.insert cs)])

/-- `Trie._query` (utils.py 194-201); `none` models the raised `KeyError`. -/
def Trie.query : Trie → List Char → Option Trie
  | t, [] => some t
  | t, c :: cs =>
    match assocFind t.next c with
    | some u => u.query cs
    | none => none

/-- `Trie.prefix` (utils.py 203-212): does the node for `w` exist and have
continuations?  A `KeyError` from `_query` yields `False`. -/
def Trie.prefixQuery (t : Trie) (w : List Char) : Bool :=
  match t.query w with
  | some u => !u.next.isEmpty
  | none => false

/-- `Trie.from_iterable` (utils.py 225-231). -/
def Trie.fromIterable (ws : List (List Char)) : Trie :=
  ws.foldl Trie.insert Trie.empty

/-- `p` is a proper prefix of `w` (decidable form used in the trie lemmas). -/
def properPref (p w : List Char) : Bool :=
  p.isPrefixOf w && decide (p.length < w.length)

/-- Outcome of `CommandValidator.validate`: return normally (input accepted)
or raise `ValidationError(message=...)`. -/
inductive ValidateResult where
  | accepted
  | raisedError (message : String)
deriving DecidableEq, Repr

/-- `CommandValidator.validate` (git_theta_merge.py 74-89).  `avail` is the
key set of the `self.avail` dict of available action strings, `prefixes` the
trie of those strings; Python's `if text` is the nonemptiness test. -/
def CommandValidator_validate (avail : List String) (prefixes : Trie)
    (text : String) : ValidateResult :=
  if text ≠ "" ∧ text ∉ avail then
    (if prefixes.prefixQuery text.data then .raisedError ""
     else .raisedError "This input is not an allowed action.")
  else .accepted

/-! ### flatten / unflatten (utils.py 77-127) -/

/-- A Python value as seen by `flatten`'s default `is_leaf`: either a
non-dict leaf or a dict (an insertion-ordered association list; key
distinctness is a dict property and is carried as `goodEntries` below). -/
inductive PyVal (α : Type) where
  | leaf (a : α)
  | dict (es : List (String × PyVal α))

/-- `utils.flatten` (lines 77-105) with the default `is_leaf` (a value is a
leaf iff it is not a dict): the inner `_flatten` walks the entries in order,
emitting `prefix + (k,)` for leaves and recursing with the extended prefix
into dict values (so an empty dict value contributes nothing). -/
def flattenEntries {α : Type} : List String → List (String × PyVal α) → List (List String × α)
  | _, [] => []
  | pre, (k, .leaf a) :: rest => (pre ++ [k], a) :: flattenEntries pre rest
  | pre, (k, .dict es) :: rest =>
    flattenEntries (pre ++ [k]) es ++ flattenEntries pre rest

/-- One iteration of `utils.unflatten`'s body (lines 121-126) for the flat
entry `(ks, a)`: `curr = nested; for k in ks[:-1]: curr = curr.setdefault(k, {});
curr[ks[-1]] = v`.  `none` models the exceptions Python would raise: an empty
key tuple (`ks[-1]` is an `IndexError`) and descending through an existing
non-dict value (the subsequent `setdefault`/item assignment on a leaf raises). -/
def setPath {α : Type} : List (String × PyVal α) → List String → α → Option (List (String × PyVal α))
  | _, [], _ => none
  | es, [k], a => some (assocSet es k (.leaf a))
  | es, k :: k' :: ks, a =>
    match assocFind es k with
    | none => (setPath [] (k' :: ks) a).map fun inner => es ++ [(k, .dict inner)]
    | some (.dict inner) =>
      (setPath inner (k' :: ks) a).map fun inner2 => assocSet es k (.dict inner2)
    | some (.leaf _) => none

/-- The loop of `utils.unflatten` started from an arbitrary partially built
nested dict (the function itself starts from the empty one). -/
def foldSetPath {α : Type} (d : List (String × PyVal α)) (f : List (List String × α)) :
    Option (List (String × PyVal α)) :=
  f.foldlM (fun es p => setPath es p.1 p.2) d

/-- `utils.unflatten` (lines 108-127): fold the flat entries in order into
the nested dict. -/
def unflatten {α : Type} (f : List (List String × α)) : Option (List (String × PyVal α)) :=
  foldSetPath [] f

mutual
/-- Well-formedness of a single Python value for the round-trip claims: a
leaf is fine; a dict value must be a nonempty dict of well-formed entries. -/
def goodPyVal {α : Type} : PyVal α → Bool
  | .leaf _ => true
  | .dict es => !es.isEmpty && goodEntries es

/-- Well-formedness of a dict's entry list: keys distinct (a Python dict
invariant) and every value well-formed. -/
def goodEntries {α : Type} : List (String × PyVal α) → Bool
  | [] => true
  | (k, v) :: rest =>
    goodPyVal v && !decide (k ∈ rest.map Prod.fst) && goodEntries rest
end

/-! ### numpy tensors and IA3Update (updates/ia3.py) -/

/-- A numpy array with exact rational entries (floats are modelled exactly;
every equality proved below is exact, so it holds a fortiori within any
nonnegative `(atol, rtol)` tolerance).  `data` is a total function; only the
multi-indices in `tensorIndices shape` are meaningful. -/
structure Tensor where
  shape : List Nat
  data : List Nat → ℚ

/-- All valid multi-indices of a shape, first axis slowest (C order). -/
def tensorIndices : List Nat → List (List Nat)
  | [] => [[]]
  | n :: rest => (List.range n).flatMap fun i => (tensorIndices rest).map (i :: ·)

/-- Zero out the components of `idx` that lie on the given axes, starting
the axis count at `i`: the index of the broadcast-group representative. -/
def zeroAxesFrom (dims : List Nat) : Nat → List Nat → List Nat
  | _, [] => []
  | i, x :: xs => (if i ∈ dims then 0 else x) :: zeroAxesFrom dims (i + 1) xs

/-- Zero out the components of `idx` on the given axes. -/
def zeroAxes (dims : List Nat) (idx : List Nat) : List Nat :=
  zeroAxesFrom dims 0 idx

/-- The shape produced by `np.sum(..., axis=tuple(dims), keepdims=True)`:
summed axes collapse to extent 1. -/
def reducedShapeFrom (dims : List Nat) : Nat → List Nat → List Nat
  | _, [] => []
  | i, n :: ns => (if i ∈ dims then 1 else n) :: reducedShapeFrom dims (i + 1) ns

/-- Keepdims-reduced shape. -/
def reducedShape (dims : List Nat) (shape : List Nat) : List Nat :=
  reducedShapeFrom dims 0 shape

/-- Read-index for numpy broadcasting of a same-rank operand of shape
`shape` at position `idx` of a (possibly larger) result: size-1 axes are
read at 0. -/
def bcastIdx : List Nat → List Nat → List Nat
  | [], _ => []
  | _ :: _, [] => []
  | n :: shape', x :: idx' => (if n = 1 then 0 else x) :: bcastIdx shape' idx'

/-- The elementwise comparison `t != 0` as numpy produces it: a boolean mask,
here 0/1-valued so that `np.sum` over it counts the `True` positions. -/
def neqZeroMask (t : Tensor) : Tensor :=
  ⟨t.shape, fun idx => if t.data idx = 0 then 0 else 1⟩

/-- `np.sum(t, axis=tuple(dims), keepdims=True)`: the entry at a reduced
index is the sum of `t` over the broadcast group of indices agreeing with it
off the summed axes. -/
def sumAxes (dims : List Nat) (t : Tensor) : Tensor :=
  ⟨reducedShape dims t.shape,
    fun ridx =>
      (((tensorIndices t.shape).filter fun j => decide (zeroAxes dims j = ridx)).map
          t.data).sum⟩

/-- `np.divide(x1, x2, out=np.zeros(outShape), where=mask)`: the result has
the shape of `out`; the inputs and the mask are broadcast to it; positions
where the (broadcast) mask is false keep `out`'s zeros. -/
def npDivide (x1 x2 mask : Tensor) (outShape : List Nat) : Tensor :=
  ⟨outShape, fun idx =>
    if mask.data (bcastIdx mask.shape idx) ≠ 0 then
      x1.data (bcastIdx x1.shape idx) / x2.data (bcastIdx x2.shape idx)
    else 0⟩

/-- The local `multiplier` of `IA3Update.calculate_update` (ia3.py 33-37):
`np.divide(parameter, previous_parameter, out=np.zeros(parameter.shape),
where=mask1)` with `mask1 = previous_parameter != 0`. -/
def ia3Multiplier (parameter previous : Tensor) : Tensor :=
  npDivide parameter previous (neqZeroMask previous) parameter.shape

/-- The local `denominator` of `IA3Update.calculate_update` (ia3.py 40):
`np.sum(mask1, axis=tuple(broadcast_dims), keepdims=True)`. -/
def ia3Denominator (previous : Tensor) (broadcast_dims : List Nat) : Tensor :=
  sumAxes broadcast_dims (neqZeroMask previous)

/-- `IA3Update.calculate_update` (ia3.py 25-49): the tensor stored under the
`"ia3"` key.  Note the second divide writes into `out=np.zeros(parameter.shape)`
— the full parameter shape, not the keepdims-reduced one — so its reduced-shape
inputs and `where=mask2` are broadcast up to the full shape. -/
def calculate_update (parameter previous : Tensor) (broadcast_dims : List Nat) : Tensor :=
  npDivide (sumAxes broadcast_dims (ia3Multiplier parameter previous))
    (ia3Denominator previous broadcast_dims)
    (neqZeroMask (ia3Denominator previous broadcast_dims))
    parameter.shape

/-- `IA3Update.apply_update` (ia3.py 51-52): `previous * update["ia3"]`,
numpy elementwise multiplication with broadcasting. -/
def apply_update (update previous : Tensor) : Tensor :=
  ⟨(previous.shape.zip update.shape).map fun p => max p.1 p.2,
    fun idx =>
      previous.data (bcastIdx previous.shape idx) *
        update.data (bcastIdx update.shape idx)⟩

/-- The count of nonzero entries of `previous` in the broadcast group of the
reduced index `r` — what the `ia3` average actually divides by. -/
def nonzeroCount (previous : Tensor) (dims : List Nat) (r : List Nat) : Nat :=
  (((tensorIndices previous.shape).filter fun j => decide (zeroAxes dims j = r)).filter
      fun j => decide (previous.data j ≠ 0)).length

/-- The previous tensor `[[2,4],[6,8]]` of the spec's scenario S3. -/
def iaPrev : Tensor :=
  ⟨[2, 2], fun idx =>
    match idx with
    | [0, 0] => 2
    | [0, 1] => 4
    | [1, 0] => 6
    | [1, 1] => 8
    | _ => 0⟩

/-- The new tensor `[[4,8],[12,16]]` of the spec's scenario S3. -/
def iaNew : Tensor :=
  ⟨[2, 2], fun idx =>
    match idx with
    | [0, 0] => 4
    | [0, 1] => 8
    | [1, 0] => 12
    | [1, 1] => 16
    | _ => 0⟩

/-- A previous tensor `[0, 3]` with a zero entry, for the divide-by-zero
handling witness. -/
def iaPrevW : Tensor :=
  ⟨[2], fun idx => match idx with | [1] => 3 | _ => 0⟩

/-- A parameter tensor `[0, 6]` of the same shape. -/
def iaParamW : Tensor :=
  ⟨[2], fun idx => match idx with | [1] => 6 | _ => 0⟩

/-! ### is_valid_oid (utils.py 130-142) -/

/-- The regex character class `[0-9a-f]`. -/
def isLowerHexDigit (c : Char) : Bool :=
  ('0' ≤ c && c ≤ '9') || ('a' ≤ c && c ≤ 'f')

/-- Consume exactly `n` characters of class `cls` from the head of the
input (the regex atom `[..]{n}`), returning the remainder. -/
def matchRepeat (cls : Char → Bool) : Nat → List Char → Option (List Char)
  | 0, s => some s
  | _ + 1, [] => none
  | n + 1, c :: cs => if cls c then matchRepeat cls n cs else none

/-- Python's `$` anchor without `re.MULTILINE`: it matches at the end of the
string, or just before a newline that ends the string. -/
def matchDollar : List Char → Bool
  | [] => true
  | [c] => c == '\n'
  | _ :: _ :: _ => false

/-- `is_valid_oid` (utils.py 130-142):
`re.match("^[0-9a-f]{64}$", oid) is not None`.  `re.match` anchors at the
start; the pattern then consumes exactly 64 class characters and requires
`$` to match at the resulting position. -/
def is_valid_oid (oid : String) : Bool :=
  match matchRepeat isLowerHexDigit 64 oid.data with
  | some rest => matchDollar rest
  | none => false

end GitTheta

namespace GitTheta

/-! ### Theorems for claims C1, C2, C4, C5, C6 -/

/-- C1: `infer_state` classifies every triple (ancestor a, current c, other o)
as the claim's case analysis states: EQUAL when a = c = o; when a = o and
c ≠ a: ADDED_A / DELETED_A / CHANGED_A according to a, c being absent; when
a = c and c ≠ o: ADDED_B / DELETED_B / CHANGED_B likewise; in all remaining
cases DELETED_B when a is absent and CHANGED_BOTH otherwise. -/
theorem inferState_matches_claimed_table {P : Type} [DecidableEq P] (a c o : Option P) :
    (a = c ∧ c = o → infer_state a c o = .EQUAL) ∧
    (a = o ∧ c ≠ a → infer_state a c o =
      (if a = none then .ADDED_A else if c = none then .DELETED_A else .CHANGED_A)) ∧
    (a = c ∧ c ≠ o → infer_state a c o =
      (if a = none then .ADDED_B else if c = none then .DELETED_B else .CHANGED_B)) ∧
    (¬(a = c ∧ c = o) → ¬(a = o ∧ c ≠ a) → ¬(a = c ∧ c ≠ o) →
      infer_state a c o = (if a = none then .DELETED_B else .CHANGED_BOTH)) := by
  unfold infer_state
  refine ⟨fun h => ?_, fun h => ?_, fun h => ?_, fun h1 h2 h3 => ?_⟩ <;>
    split_ifs <;> tauto

/-- Witness for C1: a concrete instance of each hypothesis-guarded case. -/
theorem inferState_matches_claimed_table_witness :
    infer_state (some 0) (some 0) (some (0 : Nat)) = .EQUAL :=
  (inferState_matches_claimed_table (some 0) (some 0) (some 0)).1 ⟨rfl, rfl⟩

/-- C2: evaluation at the failing input.  A parameter present in the ancestor
and deleted on both branches is classified `CHANGED_BOTH`, not `DELETED_BOTH`,
so the auto-resolve branch at line 268 never fires and the merge loop blocks
at a user prompt (here: the run with an empty user script returns `none`,
i.e. a prompt was issued) instead of silently dropping the parameter. -/
theorem bothDeleted_misclassified :
    infer_state (some (0 : Nat)) none none = .CHANGED_BOTH ∧
    mergeRun [(["p"], some (0 : Nat), none, none)] [] [] = none := by
  constructor <;> rfl

/-- C4: counterexample.  Swapping current and other does not swap A- and
B-suffixed states.  At ancestor = current = `some 0`, other = `none` (they
deleted), the swapped call returns `DELETED_A` while `swapAB` of the original
`CHANGED_B` is `CHANGED_A`; and at ancestor = `none`, current = `some 0`,
other = `some 1` (both added divergently), both argument orders return
`DELETED_B`, which `swapAB` maps to `DELETED_A`. -/
theorem inferState_swap_symmetry_counterexample :
    ¬ (infer_state (some 0) none (some (0 : Nat)) =
        swapAB (infer_state (some 0) (some 0) (none : Option Nat))) ∧
    ¬ (infer_state none (some 1) (some (0 : Nat)) =
        swapAB (infer_state (none : Option Nat) (some 0) (some 1))) := by
  decide

/-- C4 amended: `infer_state(x,x,x) = EQUAL` always, and swapping current and
other swaps A- and B-suffixed states for every triple except the asymmetric
ones (`inferStateAsym`): one-sided deletions of an ancestor-present parameter
(the B-side returns `CHANGED_B` where the mirror returns `DELETED_A`) and
ancestor-absent parameters present on both branches (both orders return
`DELETED_B`). -/
theorem inferState_swap_symmetry_amended {P : Type} [DecidableEq P] (a c o x : Option P) :
    infer_state x x x = .EQUAL ∧
    (¬ inferStateAsym a c o → infer_state a o c = swapAB (infer_state a c o)) := by
  constructor
  · simp [infer_state]
  · intro h
    rw [inferStateAsym] at h
    push_neg at h
    by_cases h1 : a = c <;> by_cases h2 : c = o <;> by_cases h3 : a = o <;>
      by_cases ha : a = none <;> by_cases hc : c = none <;> by_cases ho : o = none <;>
      simp_all [infer_state, swapAB] <;>
      (try (intro hh; exact h2 hh.symm))

/-- Witness for C4's amended theorem at a non-exceptional triple: three
pairwise distinct present values give `CHANGED_BOTH` in both orders. -/
theorem inferState_swap_symmetry_amended_witness :
    infer_state (some 0) (some 2) (some (1 : Nat)) =
      swapAB (infer_state (some 0) (some 1) (some 2)) :=
  (inferState_swap_symmetry_amended (some 0) (some 1) (some 2) none).2
    (by unfold inferStateAsym; decide)

/-- C5: evaluation at the failing configuration.  Class `EnvVarConstants`
(utils.py lines 66-74) defines no `MANUAL_MERGE` attribute, so
`EnvVarConstants.MANUAL_MERGE` at git_theta_merge.py line 385 raises
`AttributeError` for every environment — including one with
`GIT_THETA_MANUAL_MERGE` set to a truthy value — before the manual-merge
path can be taken. -/
theorem manualMerge_attribute_missing :
    envVarConstants.lookup "MANUAL_MERGE" = none ∧
    ∀ env : String → Option String, mainDispatch env = .attributeError :=
  ⟨by decide, fun _ => rfl⟩

/-- Auxiliary to C6: the write/exit discipline of the merge loop holds from
any accumulated partial model. -/
theorem mergeRun_write_discipline_aux {P : Type} [DecidableEq P] :
    ∀ (params : List (List String × Option P × Option P × Option P))
      (script : List (MergeAction P)) (acc : List (List String × Option P))
      (w : Option (List (List String × Option P))) (code : Nat),
      mergeRun params script acc = some (w, code) →
      (code = 1 ∧ w = none) ∨ (code = 0 ∧ ∃ m, w = some m) := by
  intro params
  induction params with
  | nil =>
    intro script acc w code h
    simp only [mergeRun, Option.some.injEq, Prod.mk.injEq] at h
    exact Or.inr ⟨h.2.symm, acc, h.1.symm⟩
  | cons head rest ih =>
    obtain ⟨name, a, c, o⟩ := head
    intro script acc w code h
    simp only [mergeRun] at h
    by_cases h1 : infer_state a c o = DiffState.EQUAL
    · rw [if_pos h1] at h
      exact ih _ _ _ _ h
    · rw [if_neg h1] at h
      by_cases h2 : infer_state a c o = DiffState.DELETED_BOTH
      · rw [if_pos h2] at h
        exact ih _ _ _ _ h
      · rw [if_neg h2] at h
        cases hr : resolveParam script with
        | none => rw [hr] at h; exact absurd h (by simp)
        | some pr =>
          obtain ⟨mp, script'⟩ := pr
          cases mp with
          | none =>
            rw [hr] at h
            simp only [Option.some.injEq, Prod.mk.injEq] at h
            exact Or.inl ⟨h.2.symm, h.1.symm⟩
          | some mp' =>
            rw [hr] at h
            exact ih _ _ _ _ h

/-- C6: a merge run that terminates either exited with status 1 after a `q`
action and wrote nothing, or resolved every parameter, wrote the merged
manifest over the current path exactly once, and returned 0 — there is no
outcome with a partially written manifest. -/
theorem mergeRun_write_discipline {P : Type} [DecidableEq P]
    (params : List (List String × Option P × Option P × Option P))
    (script : List (MergeAction P)) (w : Option (List (List String × Option P)))
    (code : Nat) (h : mergeRun params script [] = some (w, code)) :
    (code = 1 ∧ w = none) ∨ (code = 0 ∧ ∃ m, w = some m) :=
  mergeRun_write_discipline_aux params script [] w code h

/-- Witness for C6: a one-parameter merge where the user immediately quits
exits 1 without writing. -/
theorem mergeRun_write_discipline_witness :
    (1 = 1 ∧ (none : Option (List (List String × Option Nat))) = none) ∨
      (1 = 0 ∧ ∃ m, (none : Option (List (List String × Option Nat))) = some m) :=
  mergeRun_write_discipline [(["p"], some 0, some 1, some 2)] [.quit] none 1 (by decide)

/-! ### Trie lemmas and claim C8 -/

theorem assocSet_ne_nil {κ β : Type} [DecidableEq κ] (l : List (κ × β)) (k : κ) (v : β) :
    assocSet l k v ≠ [] := by
  cases l with
  | nil => simp [assocSet]
  | cons h t =>
    obtain ⟨k', v'⟩ := h
    simp only [assocSet]
    split <;> simp

theorem assocFind_assocSet {κ β : Type} [DecidableEq κ] (l : List (κ × β)) (k k' : κ) (v : β) :
    assocFind (assocSet l k v) k' = if k = k' then some v else assocFind l k' := by
  induction l with
  | nil =>
    simp only [assocSet, assocFind]
  | cons h t ih =>
    obtain ⟨k₀, v₀⟩ := h
    simp only [assocSet]
    by_cases h₀ : k₀ = k
    · subst h₀
      simp only [if_pos rfl, assocFind]
      by_cases h₁ : k₀ = k' <;> simp [h₁]
    · rw [if_neg h₀]
      simp only [assocFind]
      by_cases h₁ : k₀ = k'
      · subst h₁
        have : ¬k = k₀ := fun hh => h₀ hh.symm
        simp [this]
      · simp [h₁, ih]

theorem assocFind_append_single {κ β : Type} [DecidableEq κ]
    (l : List (κ × β)) (a : κ) (x : β) (b : κ) :
    assocFind (l ++ [(a, x)]) b =
      match assocFind l b with
      | some y => some y
      | none => if a = b then some x else none := by
  induction l with
  | nil => simp [assocFind]
  | cons h t ih =>
    obtain ⟨k₀, v₀⟩ := h
    simp only [List.cons_append, assocFind]
    by_cases h₀ : k₀ = b <;> simp [h₀, ih]

theorem prefixQuery_cons (t : Trie) (b : Char) (w : List Char) :
    t.prefixQuery (b :: w) =
      match assocFind t.next b with
      | some u => u.prefixQuery w
      | none => false := by
  simp only [Trie.prefixQuery, Trie.query]
  cases assocFind t.next b <;> rfl

theorem prefixQuery_empty (w : List Char) : Trie.empty.prefixQuery w = false := by
  cases w with
  | nil => rfl
  | cons b w' => rfl

theorem properPref_cons (a : Char) (p w : List Char) :
    properPref (a :: p) (a :: w) = properPref p w := by
  simp [properPref, List.isPrefixOf, Nat.succ_lt_succ_iff]

theorem prefixQuery_insert (v : List Char) :
    ∀ (w : List Char) (t : Trie),
      (t.insert v).prefixQuery w = (t.prefixQuery w || properPref w v) := by
  induction v with
  | nil =>
    intro w t
    have hnext : (t.insert []).next = t.next := by
      cases t; rfl
    cases w with
    | nil =>
      simp [Trie.prefixQuery, Trie.query, hnext, properPref]
    | cons b w' =>
      rw [prefixQuery_cons, prefixQuery_cons, hnext]
      simp [properPref, List.isPrefixOf]
  | cons a v' ih =>
    intro w t
    obtain ⟨bw, nx⟩ := t
    cases w with
    | nil =>
      have hne : ((Trie.mk bw nx).insert (a :: v')).next ≠ [] := by
        simp only [Trie.insert, Trie.next]
        cases hf : assocFind nx a with
        | some u => simpa [Trie.next] using assocSet_ne_nil nx a (u.insert v')
        | none => simp [Trie.next]
      have hp : properPref [] (a :: v') = true := by simp [properPref, List.isPrefixOf]
      rw [hp]
      simp only [Trie.prefixQuery, Trie.query, Bool.or_true]
      simpa [List.isEmpty_iff] using hne
    | cons b w' =>
      rw [prefixQuery_cons, prefixQuery_cons]
      cases hf : assocFind nx a with
      | some u =>
        have hnext : ((Trie.mk bw nx).insert (a :: v')).next = assocSet nx a (u.insert v') := by
          simp [Trie.insert, Trie.next, hf]
        have hnx : (Trie.mk bw nx).next = nx := rfl
        rw [hnext, hnx, assocFind_assocSet]
        by_cases hab : a = b
        · subst hab
          rw [if_pos rfl, hf]
          simp [ih, properPref_cons]
        · have hba' : (b == a) = false := beq_eq_false_iff_ne.mpr fun h => hab h.symm
          have hba : properPref (b :: w') (a :: v') = false := by
            simp [properPref, List.isPrefixOf, hba']
          rw [if_neg hab, hba]
          cases assocFind nx b <;> simp
      | none =>
        have hnext : ((Trie.mk bw nx).insert (a :: v')).next =
            nx ++ [(a, Trie.empty.insert v')] := by
          simp [Trie.insert, Trie.next, hf]
        have hnx : (Trie.mk bw nx).next = nx := rfl
        rw [hnext, hnx, assocFind_append_single]
        by_cases hab : a = b
        · subst hab
          rw [hf, if_pos rfl]
          simp [ih, prefixQuery_empty, properPref_cons]
        · have hba' : (b == a) = false := beq_eq_false_iff_ne.mpr fun h => hab h.symm
          have hba : properPref (b :: w') (a :: v') = false := by
            simp [properPref, List.isPrefixOf, hba']
          cases assocFind nx b <;> simp [if_neg hab, hba]

theorem prefixQuery_foldl (ws : List (List Char)) :
    ∀ (t : Trie) (w : List Char),
      (ws.foldl Trie.insert t).prefixQuery w =
        (t.prefixQuery w || ws.any (fun v => properPref w v)) := by
  induction ws with
  | nil => intro t w; simp
  | cons v ws' ih =>
    intro t w
    simp only [List.foldl_cons, ih, prefixQuery_insert, List.any_cons, Bool.or_assoc]

theorem prefixQuery_fromIterable (ws : List (List Char)) (w : List Char) :
    (Trie.fromIterable ws).prefixQuery w = ws.any (fun v => properPref w v) := by
  rw [Trie.fromIterable, prefixQuery_foldl, prefixQuery_empty, Bool.false_or]

theorem properPref_iff (p w : List Char) :
    properPref p w = true ↔ ∃ c rest, w = p ++ c :: rest := by
  constructor
  · intro h
    simp only [properPref, Bool.and_eq_true, decide_eq_true_eq] at h
    obtain ⟨h1, h2⟩ := h
    obtain ⟨tail, rfl⟩ := List.isPrefixOf_iff_prefix.mp h1
    cases tail with
    | nil => simp at h2
    | cons c rest => exact ⟨c, rest, rfl⟩
  · rintro ⟨c, rest, rfl⟩
    simp [properPref, List.isPrefixOf_iff_prefix, List.prefix_append]

/-- C8: `CommandValidator.validate` accepts exactly the empty input and the
available action strings; a nonempty non-action that is a proper prefix of
some available action raises a `ValidationError` with empty message; every
other nonempty non-action raises one with the message
"This input is not an allowed action.". -/
theorem commandValidator_validate_spec (avail : List String) (text : String) :
    (text = "" ∨ text ∈ avail →
      CommandValidator_validate avail (Trie.fromIterable (avail.map String.data)) text =
        .accepted) ∧
    (text ≠ "" → text ∉ avail →
      (∃ w ∈ avail, ∃ c rest, w.data = text.data ++ c :: rest) →
      CommandValidator_validate avail (Trie.fromIterable (avail.map String.data)) text =
        .raisedError "") ∧
    (text ≠ "" → text ∉ avail →
      ¬(∃ w ∈ avail, ∃ c rest, w.data = text.data ++ c :: rest) →
      CommandValidator_validate avail (Trie.fromIterable (avail.map String.data)) text =
        .raisedError "This input is not an allowed action.") := by
  have hpref : (Trie.fromIterable (avail.map String.data)).prefixQuery text.data = true ↔
      ∃ w ∈ avail, ∃ c rest, w.data = text.data ++ c :: rest := by
    rw [prefixQuery_fromIterable, List.any_eq_true]
    constructor
    · rintro ⟨v, hv, hp⟩
      obtain ⟨w, hw, rfl⟩ := List.mem_map.mp hv
      exact ⟨w, hw, (properPref_iff _ _).mp hp⟩
    · rintro ⟨w, hw, he⟩
      exact ⟨w.data, List.mem_map.mpr ⟨w, hw, rfl⟩, (properPref_iff _ _).mpr he⟩
  refine ⟨fun h => ?_, fun h1 h2 h3 => ?_, fun h1 h2 h3 => ?_⟩
  · rw [CommandValidator_validate, if_neg (by tauto)]
  · rw [CommandValidator_validate, if_pos ⟨h1, h2⟩, if_pos (hpref.mpr h3)]
  · rw [CommandValidator_validate, if_pos ⟨h1, h2⟩,
      if_neg (fun hq => h3 (hpref.mp hq))]

/-- Witness for C8: with actions `{q, ta}`, the input `t` is a nonempty
non-action that is a proper prefix of `ta`, so validation raises the
silent (empty-message) error. -/
theorem commandValidator_validate_spec_witness :
    CommandValidator_validate ["q", "ta"]
      (Trie.fromIterable (["q", "ta"].map String.data)) "t" = .raisedError "" :=
  (commandValidator_validate_spec ["q", "ta"] "t").2.1 (by decide) (by decide)
    ⟨"ta", by decide, 'a', [], by decide⟩

/-! ### is_valid_oid lemmas and claim C9 -/

theorem matchRepeat_eq_some_iff (cls : Char → Bool) :
    ∀ (n : Nat) (s r : List Char),
      matchRepeat cls n s = some r ↔
        ∃ p, s = p ++ r ∧ p.length = n ∧ p.all cls = true := by
  intro n
  induction n with
  | zero =>
    intro s r
    simp only [matchRepeat, Option.some.injEq]
    constructor
    · rintro rfl
      exact ⟨[], rfl, rfl, rfl⟩
    · rintro ⟨p, rfl, hl, _⟩
      rw [List.length_eq_zero.mp hl]
      rfl
  | succ n ih =>
    intro s r
    cases s with
    | nil =>
      simp only [matchRepeat]
      constructor
      · intro h; cases h
      · rintro ⟨p, hp, hl, _⟩
        cases p with
        | nil => cases hl
        | cons x xs => cases hp
    | cons c cs =>
      simp only [matchRepeat]
      by_cases hc : cls c
      · rw [if_pos hc, ih]
        constructor
        · rintro ⟨p, rfl, hl, ha⟩
          exact ⟨c :: p, rfl, by simp [hl], by simp [List.all_cons, hc, ha]⟩
        · rintro ⟨p, hp, hl, ha⟩
          cases p with
          | nil => cases hl
          | cons x xs =>
            obtain ⟨rfl, rfl⟩ : x = c ∧ xs ++ r = cs := by
              injection hp with h1 h2
              exact ⟨h1.symm, h2.symm⟩
            refine ⟨xs, rfl, by simpa using hl, ?_⟩
            simp only [List.all_cons, Bool.and_eq_true] at ha
            exact ha.2
      · rw [if_neg hc]
        constructor
        · intro h; cases h
        · rintro ⟨p, hp, hl, ha⟩
          cases p with
          | nil => cases hl
          | cons x xs =>
            obtain ⟨rfl, -⟩ : x = c ∧ xs ++ r = cs := by
              injection hp with h1 h2
              exact ⟨h1.symm, h2.symm⟩
            simp only [List.all_cons, Bool.and_eq_true] at ha
            exact absurd ha.1 hc

/-- C9 (amended): `is_valid_oid s` is `True` exactly when `s` is 64 lowercase
hex digits, or 64 lowercase hex digits followed by a single trailing newline
(Python's `$` matches just before a newline that ends the string). -/
theorem is_valid_oid_iff (s : String) :
    is_valid_oid s = true ↔
      (s.length = 64 ∧ s.data.all isLowerHexDigit = true) ∨
      (s.length = 65 ∧ (s.data.take 64).all isLowerHexDigit = true ∧
        s.data.getLast? = some '\n') := by
  have hlen : s.length = s.data.length := rfl
  rw [is_valid_oid]
  constructor
  · intro h
    cases hm : matchRepeat isLowerHexDigit 64 s.data with
    | none => rw [hm] at h; cases h
    | some rest =>
      rw [hm] at h
      obtain ⟨p, hp, hl, ha⟩ := (matchRepeat_eq_some_iff _ _ _ _).mp hm
      cases rest with
      | nil =>
        left
        rw [hlen, hp]
        simp [hl, ha]
      | cons c rest' =>
        cases rest' with
        | nil =>
          right
          have hc : c = '\n' := by
            simpa [matchDollar] using h
          subst hc
          rw [hlen, hp]
          refine ⟨by simp [hl], ?_, ?_⟩
          · rw [List.take_left' hl]
            exact ha
          · exact List.getLast?_concat p
        | cons c' rest'' =>
          simp [matchDollar] at h
  · intro h
    rcases h with ⟨hl, ha⟩ | ⟨hl, ha, hlast⟩
    · have : matchRepeat isLowerHexDigit 64 s.data = some [] :=
        (matchRepeat_eq_some_iff _ _ _ _).mpr ⟨s.data, by simp, by rw [← hl]; rfl, ha⟩
      rw [this]
      rfl
    · have hdl : s.data.length = 65 := by rw [← hlen]; exact hl
      have htl : (s.data.take 64).length = 64 := by
        rw [List.length_take, hdl]
        rfl
      have hsplit : s.data = s.data.take 64 ++ s.data.drop 64 := (List.take_append_drop _ _).symm
      have hdrop : ∃ c, s.data.drop 64 = [c] := by
        have : (s.data.drop 64).length = 1 := by
          rw [List.length_drop, hdl]
        exact List.length_eq_one.mp this
      obtain ⟨c, hc⟩ := hdrop
      have hcn : c = '\n' := by
        have := hlast
        rw [hsplit, hc, List.getLast?_concat] at this
        exact (Option.some.injEq _ _).mp this |>.symm ▸ rfl
      subst hcn
      have : matchRepeat isLowerHexDigit 64 s.data = some ['\n'] :=
        (matchRepeat_eq_some_iff _ _ _ _).mpr
          ⟨s.data.take 64, by rw [← hc]; exact hsplit, htl, ha⟩
      rw [this]
      rfl

/-- Witness for C9's amended theorem: a 64-hex-digit string is accepted. -/
theorem is_valid_oid_iff_witness :
    is_valid_oid "0123456789abcdef0123456789abcdef0123456789abcdef0123456789abcdef" = true :=
  (is_valid_oid_iff _).mpr (Or.inl (by decide))

/-- C9: counterexample.  The 65-character string of 64 `a`s followed by a
newline is accepted by `is_valid_oid` (Python's `$` matches before the
trailing newline), yet it is not a string of exactly 64 characters. -/
theorem is_valid_oid_counterexample :
    is_valid_oid "aaaaaaaaaaaaaaaaaaaaaaaaaaaaaaaaaaaaaaaaaaaaaaaaaaaaaaaaaaaaaaaa\n" = true ∧
    ("aaaaaaaaaaaaaaaaaaaaaaaaaaaaaaaaaaaaaaaaaaaaaaaaaaaaaaaaaaaaaaaa\n" : String).length ≠ 64 := by
  constructor
  · decide
  · decide

/-! ### flatten / unflatten lemmas and claim C10 -/

theorem assocFind_eq_none_iff {κ β : Type} [DecidableEq κ] (l : List (κ × β)) (k : κ) :
    assocFind l k = none ↔ k ∉ l.map Prod.fst := by
  induction l with
  | nil => simp [assocFind]
  | cons h t ih =>
    obtain ⟨k₀, v₀⟩ := h
    by_cases hk : k₀ = k
    · subst hk
      simp [assocFind]
    · simp only [assocFind, if_neg hk, ih, List.map_cons, List.mem_cons, not_or]
      exact ⟨fun h => ⟨fun hh => hk hh.symm, h⟩, fun h => h.2⟩

theorem assocSet_of_not_mem {κ β : Type} [DecidableEq κ] (l : List (κ × β)) (k : κ) (v : β)
    (h : k ∉ l.map Prod.fst) : assocSet l k v = l ++ [(k, v)] := by
  induction l with
  | nil => rfl
  | cons hd t ih =>
    obtain ⟨k₀, v₀⟩ := hd
    simp only [List.map_cons, List.mem_cons, not_or] at h
    simp only [assocSet, if_neg (fun hh : k₀ = k => h.1 hh.symm), List.cons_append,
      List.cons.injEq, true_and]
    exact ih h.2

theorem assocFind_append_found {κ β : Type} [DecidableEq κ] (l : List (κ × β)) (k : κ) (x : β)
    (h : k ∉ l.map Prod.fst) : assocFind (l ++ [(k, x)]) k = some x := by
  rw [assocFind_append_single, (assocFind_eq_none_iff l k).mpr h, if_pos rfl]

theorem assocSet_append_found {κ β : Type} [DecidableEq κ] (l : List (κ × β)) (k : κ) (x y : β)
    (h : k ∉ l.map Prod.fst) : assocSet (l ++ [(k, x)]) k y = l ++ [(k, y)] := by
  induction l with
  | nil => simp [assocSet]
  | cons hd t ih =>
    obtain ⟨k₀, v₀⟩ := hd
    simp only [List.map_cons, List.mem_cons, not_or] at h
    simp only [List.cons_append, assocSet, if_neg (fun hh : k₀ = k => h.1 hh.symm),
      List.cons.injEq, true_and]
    exact ih h.2

theorem flattenEntries_shift {α : Type} (x : String) :
    ∀ (pre : List String) (es : List (String × PyVal α)),
      flattenEntries (x :: pre) es =
        (flattenEntries pre es).map (fun p => (x :: p.1, p.2)) := by
  intro pre es
  induction pre, es using flattenEntries.induct with
  | case1 pre => simp [flattenEntries]
  | case2 pre k a rest ih =>
    simp [flattenEntries, ih]
  | case3 pre k es rest ih1 ih2 =>
    have hx : x :: pre ++ [k] = x :: (pre ++ [k]) := rfl
    simp only [flattenEntries, hx, ih1, ih2, List.map_append]

theorem flattenEntries_append {α : Type} :
    ∀ (pre : List String) (es₁ es₂ : List (String × PyVal α)),
      flattenEntries pre (es₁ ++ es₂) =
        flattenEntries pre es₁ ++ flattenEntries pre es₂ := by
  intro pre es₁
  induction pre, es₁ using flattenEntries.induct with
  | case1 pre => intro es₂; simp [flattenEntries]
  | case2 pre k a rest ih =>
    intro es₂
    simp [flattenEntries, ih]
  | case3 pre k es rest ih1 ih2 =>
    intro es₂
    simp [flattenEntries, ih2]

theorem flattenEntries_key_structure {α : Type} :
    ∀ (pre : List String) (es : List (String × PyVal α)) (p : List String × α),
      p ∈ flattenEntries pre es → ∃ k t, p.1 = pre ++ k :: t := by
  intro pre es
  induction pre, es using flattenEntries.induct with
  | case1 pre => intro p hp; simp [flattenEntries] at hp
  | case2 pre k a rest ih =>
    intro p hp
    simp only [flattenEntries, List.mem_cons] at hp
    rcases hp with rfl | hp
    · exact ⟨k, [], rfl⟩
    · exact ih p hp
  | case3 pre k es rest ih1 ih2 =>
    intro p hp
    simp only [flattenEntries, List.mem_append] at hp
    rcases hp with hp | hp
    · obtain ⟨k', t, ht⟩ := ih1 p hp
      exact ⟨k, k' :: t, by simpa using ht⟩
    · exact ih2 p hp

theorem flattenEntries_key_ne_nil {α : Type} (es : List (String × PyVal α))
    (p : List String × α) (hp : p ∈ flattenEntries [] es) : p.1 ≠ [] := by
  obtain ⟨k, t, ht⟩ := flattenEntries_key_structure [] es p hp
  simp [ht]

theorem goodEntries_cons_iff {α : Type} (k : String) (v : PyVal α)
    (rest : List (String × PyVal α)) :
    goodEntries ((k, v) :: rest) = true ↔
      goodPyVal v = true ∧ k ∉ rest.map Prod.fst ∧ goodEntries rest = true := by
  simp [goodEntries, and_assoc]

theorem flattenEntries_ne_nil {α : Type} :
    ∀ (pre : List String) (es : List (String × PyVal α)),
      es ≠ [] → goodEntries es = true → flattenEntries pre es ≠ [] := by
  intro pre es
  induction pre, es using flattenEntries.induct with
  | case1 pre => intro h _; exact absurd rfl h
  | case2 pre k a rest ih =>
    intro _ _
    simp [flattenEntries]
  | case3 pre k es rest ih1 ih2 =>
    intro _ hg
    obtain ⟨hv, -, -⟩ := (goodEntries_cons_iff _ _ _).mp hg
    simp only [goodPyVal, Bool.and_eq_true, List.isEmpty_iff, Bool.not_eq_true'] at hv
    have hne := ih1 (by simpa using hv.1) hv.2
    simp only [flattenEntries, ne_eq, List.append_eq_nil, not_and]
    intro hc
    exact absurd hc hne

theorem foldSetPath_nil {α : Type} (d : List (String × PyVal α)) :
    foldSetPath d [] = some d := rfl

theorem foldSetPath_cons {α : Type} (d : List (String × PyVal α))
    (p : List String × α) (l : List (List String × α)) :
    foldSetPath d (p :: l) = (setPath d p.1 p.2).bind fun d' => foldSetPath d' l := rfl

theorem foldSetPath_append {α : Type} (d : List (String × PyVal α))
    (l₁ l₂ : List (List String × α)) :
    foldSetPath d (l₁ ++ l₂) = (foldSetPath d l₁).bind fun d' => foldSetPath d' l₂ := by
  induction l₁ generalizing d with
  | nil => simp [foldSetPath_nil, List.nil_append, Option.bind]
  | cons p l₁' ih =>
    rw [List.cons_append, foldSetPath_cons, foldSetPath_cons]
    cases setPath d p.1 p.2 with
    | none => rfl
    | some d' => exact ih d'

theorem setPath_fresh_cons {α : Type} (d : List (String × PyVal α)) (k k' : String)
    (ks : List String) (a : α) (h : assocFind d k = none) :
    setPath d (k :: k' :: ks) a =
      (setPath [] (k' :: ks) a).map fun inner => d ++ [(k, .dict inner)] := by
  simp [setPath, h]

theorem setPath_nested {α : Type} (d : List (String × PyVal α)) (k k' : String)
    (ks : List String) (a : α) (inner : List (String × PyVal α))
    (h : assocFind d k = some (.dict inner)) :
    setPath d (k :: k' :: ks) a =
      (setPath inner (k' :: ks) a).map fun inner2 => assocSet d k (.dict inner2) := by
  simp [setPath, h]

theorem setPath_nil_chain {α : Type} (a : α) :
    ∀ ks : List String, ks ≠ [] →
      ∃ chain : List (String × PyVal α),
        setPath [] ks a = some chain ∧ flattenEntries [] chain = [(ks, a)] ∧
          goodEntries chain = true ∧ chain ≠ [] := by
  intro ks
  induction ks with
  | nil => intro h; exact absurd rfl h
  | cons k ks' ih =>
    intro _
    cases ks' with
    | nil =>
      refine ⟨[(k, .leaf a)], rfl, by simp [flattenEntries], ?_, by simp⟩
      simp [goodEntries, goodPyVal]
    | cons k' ks'' =>
      obtain ⟨chain, hc, hf, hg, hne⟩ := ih (by simp)
      refine ⟨[(k, .dict chain)], ?_, ?_, ?_, by simp⟩
      · rw [setPath_fresh_cons [] k k' ks'' a rfl, hc]
        rfl
      · have : ([k] : List String) = k :: [] := rfl
        simp [flattenEntries, this, flattenEntries_shift, hf]
      · simp [goodEntries, goodPyVal, hg, List.isEmpty_iff, hne]

theorem foldSetPath_cons_key {α : Type} (k : String) :
    ∀ (L : List (List String × α)) (acc d₀ : List (String × PyVal α)),
      k ∉ d₀.map Prod.fst → (∀ p ∈ L, p.1 ≠ []) →
      foldSetPath (d₀ ++ [(k, .dict acc)]) (L.map fun p => (k :: p.1, p.2)) =
        (foldSetPath acc L).map fun r => d₀ ++ [(k, .dict r)] := by
  intro L
  induction L with
  | nil => intro acc d₀ _ _; rfl
  | cons p L' ih =>
    obtain ⟨ks, a⟩ := p
    intro acc d₀ hk hne
    have hks : ks ≠ [] := hne (ks, a) (List.mem_cons_self _ _)
    obtain ⟨k', ks', rfl⟩ : ∃ k' ks', ks = k' :: ks' := by
      cases ks with
      | nil => exact absurd rfl hks
      | cons x xs => exact ⟨x, xs, rfl⟩
    rw [List.map_cons, foldSetPath_cons, foldSetPath_cons]
    dsimp only
    have hfind : assocFind (d₀ ++ [(k, PyVal.dict acc)]) k = some (.dict acc) :=
      assocFind_append_found d₀ k _ hk
    rw [setPath_nested _ _ _ _ _ _ hfind]
    cases hsp : setPath acc (k' :: ks') a with
    | none => rfl
    | some acc' =>
      rw [Option.map_some', Option.some_bind, Option.some_bind,
        assocSet_append_found _ _ _ _ hk]
      exact ih acc' d₀ hk fun p hp => hne p (List.mem_cons_of_mem _ hp)

theorem unflatten_flatten_aux {α : Type} :
    ∀ (n : Nat) (es d : List (String × PyVal α)), sizeOf es ≤ n →
      goodEntries es = true →
      (∀ k ∈ es.map Prod.fst, k ∉ d.map Prod.fst) →
      foldSetPath d (flattenEntries [] es) = some (d ++ es) := by
  intro n
  induction n with
  | zero =>
    intro es d hs
    exact absurd hs (by cases es <;> simp)
  | succ n ihn =>
    intro es d hs hg hdisj
    cases es with
    | nil => simp [flattenEntries, foldSetPath_nil]
    | cons hd rest =>
      obtain ⟨k, v⟩ := hd
      obtain ⟨hv, hknotin, hgrest⟩ := (goodEntries_cons_iff _ _ _).mp hg
      have hkd : k ∉ d.map Prod.fst := hdisj k (by simp)
      have hdisj' : ∀ k' ∈ rest.map Prod.fst, k' ∉ (d ++ [(k, v)]).map Prod.fst := by
        intro k' hk'
        simp only [List.map_append, List.mem_append, List.map_cons, List.map_nil,
          List.mem_singleton, not_or]
        exact ⟨hdisj k' (by simp [hk']), fun hh => hknotin (hh ▸ hk')⟩
      cases v with
      | leaf a =>
        have hsz : sizeOf rest ≤ n := by
          have := hs
          simp only [List.cons.sizeOf_spec, Prod.mk.sizeOf_spec, PyVal.leaf.sizeOf_spec] at this
          omega
        have hflat : flattenEntries [] ((k, PyVal.leaf a) :: rest) =
            ([k], a) :: flattenEntries [] rest := by
          simp [flattenEntries]
        rw [hflat, foldSetPath_cons]
        dsimp only
        have hset : setPath d [k] a = some (d ++ [(k, PyVal.leaf a)]) := by
          rw [show setPath d [k] a = some (assocSet d k (.leaf a)) from rfl,
            assocSet_of_not_mem d k _ hkd]
        rw [hset, Option.some_bind, ihn rest _ hsz hgrest hdisj']
        simp
      | dict inner =>
        have hszr : sizeOf rest ≤ n := by
          have := hs
          simp only [List.cons.sizeOf_spec, Prod.mk.sizeOf_spec, PyVal.dict.sizeOf_spec] at this
          omega
        have hszi : sizeOf inner ≤ n := by
          have := hs
          simp only [List.cons.sizeOf_spec, Prod.mk.sizeOf_spec, PyVal.dict.sizeOf_spec] at this
          omega
        simp only [goodPyVal, Bool.and_eq_true, Bool.not_eq_true', List.isEmpty_iff] at hv
        obtain ⟨hinner_ne0, hginner⟩ := hv
        have hinner_ne : inner ≠ [] := fun h => by simp [h] at hinner_ne0
        have hinner : foldSetPath ([] : List (String × PyVal α)) (flattenEntries [] inner) =
            some inner := by
          have := ihn inner [] hszi hginner (by simp)
          simpa using this
        have hflat : flattenEntries [] ((k, PyVal.dict inner) :: rest) =
            ((flattenEntries [] inner).map fun p => (k :: p.1, p.2)) ++
              flattenEntries [] rest := by
          have h1 : flattenEntries ([] : List String) ((k, PyVal.dict inner) :: rest) =
              flattenEntries [k] inner ++ flattenEntries [] rest := by
            simp [flattenEntries]
          rw [h1, show ([k] : List String) = k :: [] from rfl, flattenEntries_shift]
        have hQne : ∀ p ∈ flattenEntries [] inner, p.1 ≠ ([] : List String) :=
          fun p hp => flattenEntries_key_ne_nil inner p hp
        cases hfi : flattenEntries ([] : List String) inner with
        | nil => exact absurd hfi (flattenEntries_ne_nil [] inner hinner_ne hginner)
        | cons q Q =>
          rw [hfi, foldSetPath_cons] at hinner
          cases hq : setPath ([] : List (String × PyVal α)) q.1 q.2 with
          | none =>
            rw [hq] at hinner
            simp at hinner
          | some acc₀ =>
            rw [hq, Option.some_bind] at hinner
            have hq1 : q.1 ≠ [] := hQne q (hfi ▸ List.mem_cons_self _ _)
            obtain ⟨k₁, ks₁, hk₁⟩ : ∃ k₁ ks₁, q.1 = k₁ :: ks₁ := by
              cases hqq : q.1 with
              | nil => exact absurd hqq hq1
              | cons x xs => exact ⟨x, xs, rfl⟩
            rw [hflat, hfi, foldSetPath_append, List.map_cons, foldSetPath_cons]
            dsimp only
            have hset : setPath d (k :: q.1) q.2 = some (d ++ [(k, PyVal.dict acc₀)]) := by
              rw [hk₁, setPath_fresh_cons d k k₁ ks₁ q.2
                ((assocFind_eq_none_iff d k).mpr hkd), ← hk₁, hq]
              rfl
            rw [hset, Option.some_bind]
            have hkey := foldSetPath_cons_key k Q acc₀ d hkd
              (fun p hp => hQne p (hfi ▸ List.mem_cons_of_mem _ hp))
            rw [hkey, hinner, Option.map_some', Option.some_bind,
              ihn rest _ hszr hgrest hdisj']
            simp

theorem assocFind_flatten_mem_leaf {α : Type} :
    ∀ (d : List (String × PyVal α)) (k : String) (b : α),
      assocFind d k = some (.leaf b) → ([k], b) ∈ flattenEntries [] d := by
  intro d
  induction d with
  | nil => intro k b h; cases h
  | cons hd t ih =>
    obtain ⟨k₀, v₀⟩ := hd
    intro k b h
    by_cases hk : k₀ = k
    · subst hk
      rw [show assocFind ((k₀, v₀) :: t) k₀ = some v₀ from by simp [assocFind]] at h
      obtain rfl : v₀ = .leaf b := by injection h
      simp [flattenEntries]
    · rw [show assocFind ((k₀, v₀) :: t) k = assocFind t k from by simp [assocFind, hk]] at h
      cases v₀ with
      | leaf a₀ => simp only [flattenEntries, List.mem_cons]; exact Or.inr (ih k b h)
      | dict es₀ =>
        simp only [flattenEntries, List.mem_append]
        exact Or.inr (ih k b h)

theorem assocFind_flatten_mem_dict {α : Type} :
    ∀ (d : List (String × PyVal α)) (k : String) (inner : List (String × PyVal α))
      (q : List String × α),
      assocFind d k = some (.dict inner) → q ∈ flattenEntries [] inner →
      (k :: q.1, q.2) ∈ flattenEntries [] d := by
  intro d
  induction d with
  | nil => intro k inner q h; cases h
  | cons hd t ih =>
    obtain ⟨k₀, v₀⟩ := hd
    intro k inner q h hq
    by_cases hk : k₀ = k
    · subst hk
      rw [show assocFind ((k₀, v₀) :: t) k₀ = some v₀ from by simp [assocFind]] at h
      obtain rfl : v₀ = .dict inner := by injection h
      simp only [flattenEntries, List.nil_append, List.mem_append]
      left
      rw [show ([k₀] : List String) = k₀ :: [] from rfl, flattenEntries_shift]
      exact List.mem_map.mpr ⟨q, hq, rfl⟩
    · rw [show assocFind ((k₀, v₀) :: t) k = assocFind t k from by simp [assocFind, hk]] at h
      cases v₀ with
      | leaf a₀ =>
        simp only [flattenEntries, List.mem_cons]
        exact Or.inr (ih k inner q h hq)
      | dict es₀ =>
        simp only [flattenEntries, List.mem_append]
        exact Or.inr (ih k inner q h hq)

theorem assocFind_decomp {κ β : Type} [DecidableEq κ] :
    ∀ (l : List (κ × β)) (k : κ) (v : β),
      assocFind l k = some v →
      ∃ l₁ l₂, l = l₁ ++ (k, v) :: l₂ ∧ k ∉ l₁.map Prod.fst ∧
        ∀ w, assocSet l k w = l₁ ++ (k, w) :: l₂ := by
  intro l
  induction l with
  | nil => intro k v h; cases h
  | cons hd t ih =>
    obtain ⟨k₀, v₀⟩ := hd
    intro k v h
    by_cases hk : k₀ = k
    · subst hk
      rw [show assocFind ((k₀, v₀) :: t) k₀ = some v₀ from by simp [assocFind]] at h
      obtain rfl : v₀ = v := by injection h
      exact ⟨[], t, rfl, by simp, fun w => by simp [assocSet]⟩
    · rw [show assocFind ((k₀, v₀) :: t) k = assocFind t k from by simp [assocFind, hk]] at h
      obtain ⟨l₁, l₂, rfl, hnk, hset⟩ := ih k v h
      refine ⟨(k₀, v₀) :: l₁, l₂, rfl, ?_, fun w => ?_⟩
      · simp only [List.map_cons, List.mem_cons, not_or]
        exact ⟨fun hh => hk hh.symm, hnk⟩
      · simp only [List.cons_append, assocSet, if_neg hk]
        rw [show assocSet (l₁ ++ (k, v) :: l₂) k w = l₁ ++ (k, w) :: l₂ from hset w]

theorem goodEntries_mem_good {α : Type} :
    ∀ (d : List (String × PyVal α)) (k : String) (v : PyVal α),
      goodEntries d = true → assocFind d k = some v → goodPyVal v = true := by
  intro d
  induction d with
  | nil => intro k v _ h; cases h
  | cons hd t ih =>
    obtain ⟨k₀, v₀⟩ := hd
    intro k v hg h
    obtain ⟨hv₀, -, hgt⟩ := (goodEntries_cons_iff _ _ _).mp hg
    by_cases hk : k₀ = k
    · subst hk
      rw [show assocFind ((k₀, v₀) :: t) k₀ = some v₀ from by simp [assocFind]] at h
      obtain rfl : v₀ = v := by injection h
      exact hv₀
    · rw [show assocFind ((k₀, v₀) :: t) k = assocFind t k from by simp [assocFind, hk]] at h
      exact ih k v hgt h

theorem goodEntries_replaceValue {α : Type} :
    ∀ (l₁ : List (String × PyVal α)) (k : String) (v w : PyVal α)
      (l₂ : List (String × PyVal α)),
      goodEntries (l₁ ++ (k, v) :: l₂) = true → goodPyVal w = true →
      goodEntries (l₁ ++ (k, w) :: l₂) = true := by
  intro l₁
  induction l₁ with
  | nil =>
    intro k v w l₂ hg hw
    obtain ⟨-, hk, hgt⟩ := (goodEntries_cons_iff _ _ _).mp hg
    exact (goodEntries_cons_iff _ _ _).mpr ⟨hw, hk, hgt⟩
  | cons hd t ih =>
    obtain ⟨k₀, v₀⟩ := hd
    intro k v w l₂ hg hw
    rw [List.cons_append] at hg ⊢
    obtain ⟨hv₀, hk₀, hgt⟩ := (goodEntries_cons_iff _ _ _).mp hg
    refine (goodEntries_cons_iff _ _ _).mpr ⟨hv₀, ?_, ih k v w l₂ hgt hw⟩
    simpa [List.map_append] using hk₀

theorem goodEntries_append_singleton {α : Type} :
    ∀ (d : List (String × PyVal α)) (k : String) (v : PyVal α),
      goodEntries d = true → k ∉ d.map Prod.fst → goodPyVal v = true →
      goodEntries (d ++ [(k, v)]) = true := by
  intro d
  induction d with
  | nil =>
    intro k v _ _ hv
    exact (goodEntries_cons_iff _ _ _).mpr ⟨hv, by simp, rfl⟩
  | cons hd t ih =>
    obtain ⟨k₀, v₀⟩ := hd
    intro k v hg hk hv
    simp only [List.map_cons, List.mem_cons, not_or] at hk
    obtain ⟨hv₀, hk₀, hgt⟩ := (goodEntries_cons_iff _ _ _).mp hg
    rw [List.cons_append]
    refine (goodEntries_cons_iff _ _ _).mpr ⟨hv₀, ?_, ih k v hgt hk.2 hv⟩
    simp only [List.map_append, List.mem_append, List.map_cons, List.map_nil,
      List.mem_singleton, not_or]
    exact ⟨hk₀, fun hh => hk.1 hh.symm⟩

theorem flattenEntries_middle_dict {α : Type} (l₁ l₂ : List (String × PyVal α))
    (k : String) (inner : List (String × PyVal α)) :
    flattenEntries [] (l₁ ++ (k, .dict inner) :: l₂) =
      flattenEntries [] l₁ ++
        (((flattenEntries [] inner).map fun p => (k :: p.1, p.2)) ++
          flattenEntries [] l₂) := by
  rw [flattenEntries_append]
  have : flattenEntries ([] : List String) ((k, PyVal.dict inner) :: l₂) =
      flattenEntries [k] inner ++ flattenEntries [] l₂ := by
    simp [flattenEntries]
  rw [this, show ([k] : List String) = k :: [] from rfl, flattenEntries_shift]

theorem setPath_step {α : Type} (a : α) :
    ∀ (ks : List String) (d : List (String × PyVal α)), ks ≠ [] → goodEntries d = true →
      (∀ q ∈ flattenEntries [] d, ¬ (q.1 <+: ks) ∧ ¬ (ks <+: q.1)) →
      ∃ d', setPath d ks a = some d' ∧ goodEntries d' = true ∧
        (flattenEntries [] d').Perm (flattenEntries [] d ++ [(ks, a)]) := by
  intro ks
  induction ks with
  | nil => intro d h; exact absurd rfl h
  | cons k ks' ih =>
    intro d _ hg hcond
    cases hf : assocFind d k with
    | none =>
      have hkd : k ∉ d.map Prod.fst := (assocFind_eq_none_iff d k).mp hf
      cases ks' with
      | nil =>
        refine ⟨d ++ [(k, .leaf a)], ?_, ?_, ?_⟩
        · rw [show setPath d [k] a = some (assocSet d k (.leaf a)) from rfl,
            assocSet_of_not_mem d k _ hkd]
        · exact goodEntries_append_singleton d k _ hg hkd rfl
        · rw [flattenEntries_append,
            show flattenEntries ([] : List String) [(k, PyVal.leaf a)] = [([k], a)] from by
              simp [flattenEntries]]
      | cons k' ks'' =>
        obtain ⟨chain, hc, hfc, hgc, hnec⟩ := setPath_nil_chain a (k' :: ks'') (by simp)
        refine ⟨d ++ [(k, .dict chain)], ?_, ?_, ?_⟩
        · rw [setPath_fresh_cons d k k' ks'' a hf, hc]
          rfl
        · refine goodEntries_append_singleton d k _ hg hkd ?_
          simp [goodPyVal, hgc, List.isEmpty_iff, hnec]
        · have h1 : flattenEntries ([] : List String) [(k, PyVal.dict chain)] =
              (flattenEntries [] chain).map fun p => (k :: p.1, p.2) := by
            rw [show flattenEntries ([] : List String) [(k, PyVal.dict chain)] =
              flattenEntries [k] chain ++ flattenEntries [] [] from by simp [flattenEntries],
              show ([k] : List String) = k :: [] from rfl, flattenEntries_shift]
            simp [flattenEntries]
          rw [flattenEntries_append, h1, hfc]
          simp only [List.map_cons, List.map_nil]
          exact List.Perm.refl _
    | some v =>
      cases v with
      | leaf b =>
        exfalso
        have hmem := assocFind_flatten_mem_leaf d k b hf
        exact (hcond _ hmem).1 (List.cons_prefix_cons.mpr ⟨rfl, List.nil_prefix⟩)
      | dict inner =>
        have hgv := goodEntries_mem_good d k _ hg hf
        simp only [goodPyVal, Bool.and_eq_true, Bool.not_eq_true'] at hgv
        obtain ⟨hie, hginner⟩ := hgv
        have hinner_ne : inner ≠ [] := fun h => by simp [h] at hie
        cases ks' with
        | nil =>
          exfalso
          have hne := flattenEntries_ne_nil [] inner hinner_ne hginner
          cases hq : flattenEntries ([] : List String) inner with
          | nil => exact hne hq
          | cons q Q =>
            have hqm : q ∈ flattenEntries [] inner := hq ▸ List.mem_cons_self _ _
            have hmem := assocFind_flatten_mem_dict d k inner q hf hqm
            exact (hcond _ hmem).2 (List.cons_prefix_cons.mpr ⟨rfl, List.nil_prefix⟩)
        | cons k' ks'' =>
          have hsub : ∀ q ∈ flattenEntries [] inner,
              ¬ (q.1 <+: (k' :: ks'')) ∧ ¬ ((k' :: ks'') <+: q.1) := by
            intro q hq
            have h2 := hcond _ (assocFind_flatten_mem_dict d k inner q hf hq)
            exact ⟨fun hp => h2.1 (List.cons_prefix_cons.mpr ⟨rfl, hp⟩),
              fun hp => h2.2 (List.cons_prefix_cons.mpr ⟨rfl, hp⟩)⟩
          obtain ⟨inner', hsp, hg', hperm'⟩ := ih inner (by simp) hginner hsub
          obtain ⟨l₁, l₂, rfl, hkl₁, hset⟩ := assocFind_decomp d k _ hf
          refine ⟨l₁ ++ (k, .dict inner') :: l₂, ?_, ?_, ?_⟩
          · rw [setPath_nested _ _ _ _ _ _ hf, hsp, Option.map_some', hset (.dict inner')]
          · have hinner'_ne : inner' ≠ [] := by
              intro h
              rw [h] at hperm'
              have := hperm'.length_eq
              simp [flattenEntries] at this
            refine goodEntries_replaceValue l₁ k _ _ l₂ hg ?_
            simp [goodPyVal, hg', List.isEmpty_iff, hinner'_ne]
          · rw [flattenEntries_middle_dict, flattenEntries_middle_dict]
            have hM : ((flattenEntries [] inner').map
                  fun p => ((k :: p.1 : List String), p.2)).Perm
                (((flattenEntries [] inner).map fun p => (k :: p.1, p.2)) ++
                  [(k :: k' :: ks'', a)]) := by
              have := hperm'.map (fun p => ((k :: p.1 : List String), p.2))
              simpa [List.map_append] using this
            simp only [List.append_assoc]
            refine List.Perm.append_left _ ?_
            refine List.Perm.trans (hM.append (List.Perm.refl (flattenEntries [] l₂))) ?_
            rw [List.append_assoc]
            exact List.Perm.append_left _ List.perm_append_comm

theorem foldSetPath_flatten {α : Type} :
    ∀ (f : List (List String × α)) (d : List (String × PyVal α)),
      goodEntries d = true →
      (∀ p ∈ f, p.1 ≠ []) →
      List.Pairwise (fun p q : List String × α => ¬ (p.1 <+: q.1) ∧ ¬ (q.1 <+: p.1)) f →
      (∀ p ∈ flattenEntries [] d, ∀ q ∈ f, ¬ (p.1 <+: q.1) ∧ ¬ (q.1 <+: p.1)) →
      ∃ es, foldSetPath d f = some es ∧ goodEntries es = true ∧
        (flattenEntries [] es).Perm (flattenEntries [] d ++ f) := by
  intro f
  induction f with
  | nil =>
    intro d hg _ _ _
    exact ⟨d, rfl, hg, by simp⟩
  | cons p f' ih =>
    obtain ⟨ks, a⟩ := p
    intro d hg hne hpw hcross
    have hks : ks ≠ [] := hne (ks, a) (List.mem_cons_self _ _)
    obtain ⟨d', hsp, hg', hperm'⟩ :=
      setPath_step a ks d hks hg fun q hq => hcross q hq (ks, a) (List.mem_cons_self _ _)
    rw [foldSetPath_cons]
    dsimp only
    rw [hsp, Option.some_bind]
    have hpw' := (List.pairwise_cons.mp hpw).2
    have hhead := (List.pairwise_cons.mp hpw).1
    have hcross' : ∀ p ∈ flattenEntries [] d', ∀ q ∈ f',
        ¬ (p.1 <+: q.1) ∧ ¬ (q.1 <+: p.1) := by
      intro p hp q hq
      have hp' : p ∈ flattenEntries [] d ++ [(ks, a)] := hperm'.mem_iff.mp hp
      rcases List.mem_append.mp hp' with hp' | hp'
      · exact hcross p hp' q (List.mem_cons_of_mem _ hq)
      · obtain rfl : p = (ks, a) := List.mem_singleton.mp hp'
        exact hhead q hq
    obtain ⟨es, he, hge, hpe⟩ := ih d' hg'
      (fun p hp => hne p (List.mem_cons_of_mem _ hp)) hpw' hcross'
    refine ⟨es, he, hge, ?_⟩
    refine List.Perm.trans hpe ?_
    refine List.Perm.trans (hperm'.append (List.Perm.refl f')) ?_
    simp [List.append_assoc]

/-- C10: `flatten` and `unflatten` form a round trip.  (1) For every nested
dict in which each value is a non-dict leaf or a nonempty dict (and, as in
any Python dict, keys are distinct at every level — `goodEntries`),
`unflatten (flatten d) = d`, with even the insertion order reproduced.
(2) For every flat dict whose keys are nonempty tuples, pairwise distinct and
with no key a proper prefix of another, `unflatten` succeeds and
`flatten (unflatten f)` equals `f` as a Python dict: it has exactly the same
key/value pairs (`List.Perm`; the textual order may differ, which Python's
order-insensitive `dict.__eq__` ignores). -/
theorem flatten_unflatten_round_trip {α : Type} :
    (∀ es : List (String × PyVal α), goodEntries es = true →
      unflatten (flattenEntries [] es) = some es) ∧
    (∀ f : List (List String × α),
      (∀ p ∈ f, p.1 ≠ []) →
      List.Pairwise (fun p q : List String × α => ¬ (p.1 <+: q.1) ∧ ¬ (q.1 <+: p.1)) f →
      ∃ es, unflatten f = some es ∧ (flattenEntries [] es).Perm f) := by
  constructor
  · intro es hg
    have := unflatten_flatten_aux (sizeOf es) es [] le_rfl hg (by simp)
    simpa [unflatten] using this
  · intro f h1 h2
    obtain ⟨es, he, -, hperm⟩ := foldSetPath_flatten f [] rfl h1 h2
      (by intro p hp; simp [flattenEntries] at hp)
    exact ⟨es, by simpa [unflatten] using he, by simpa [flattenEntries] using hperm⟩

/-- Witness for C10: a two-level nested dict survives the round trip, and a
flat dict with prefix-free keys is rebuilt and re-flattened to the same
entries. -/
theorem flatten_unflatten_round_trip_witness :
    (unflatten (flattenEntries []
        [("a", PyVal.leaf (1 : Nat)), ("b", PyVal.dict [("c", PyVal.leaf 2)])]) =
      some [("a", PyVal.leaf 1), ("b", PyVal.dict [("c", PyVal.leaf 2)])]) ∧
    (∃ es, unflatten [(["a"], (1 : Nat)), (["b", "c"], 2)] = some es ∧
      (flattenEntries [] es).Perm [(["a"], 1), (["b", "c"], 2)]) :=
  ⟨flatten_unflatten_round_trip.1
      [("a", PyVal.leaf 1), ("b", PyVal.dict [("c", PyVal.leaf 2)])] (by decide),
    flatten_unflatten_round_trip.2 [(["a"], 1), (["b", "c"], 2)] (by decide) (by decide)⟩

/-! ### Tensor lemmas and claims C3, C7 -/

theorem mem_tensorIndices_iff :
    ∀ (shape idx : List Nat), idx ∈ tensorIndices shape ↔ List.Forall₂ (· < ·) idx shape := by
  intro shape
  induction shape with
  | nil =>
    intro idx
    simp only [tensorIndices, List.mem_singleton]
    constructor
    · rintro rfl; exact List.Forall₂.nil
    · intro h; cases h; rfl
  | cons n rest ih =>
    intro idx
    simp only [tensorIndices, List.mem_flatMap, List.mem_map, List.mem_range]
    constructor
    · rintro ⟨i, hi, t, ht, rfl⟩
      exact List.Forall₂.cons hi ((ih t).mp ht)
    · intro h
      cases h with
      | cons hx ht => exact ⟨_, hx, _, (ih _).mpr ht, rfl⟩

theorem bcastIdx_self {shape idx : List Nat} (h : List.Forall₂ (· < ·) idx shape) :
    bcastIdx shape idx = idx := by
  induction h with
  | nil => rfl
  | @cons x n idx' shape' hx hrest ih =>
    rw [show bcastIdx (n :: shape') (x :: idx') =
      (if n = 1 then 0 else x) :: bcastIdx shape' idx' from rfl, ih]
    by_cases h1 : n = 1
    · subst h1
      have hx0 : x = 0 := by omega
      simp [hx0]
    · simp [h1]

theorem bcastIdx_reducedFrom (dims : List Nat) :
    ∀ {shape idx : List Nat}, List.Forall₂ (· < ·) idx shape →
      ∀ i, bcastIdx (reducedShapeFrom dims i shape) idx = zeroAxesFrom dims i idx := by
  intro shape idx h
  induction h with
  | nil => intro i; rfl
  | @cons x n idx' shape' hx hrest ih =>
    intro i
    rw [show reducedShapeFrom dims i (n :: shape') =
      (if i ∈ dims then 1 else n) :: reducedShapeFrom dims (i + 1) shape' from rfl]
    rw [show zeroAxesFrom dims i (x :: idx') =
      (if i ∈ dims then 0 else x) :: zeroAxesFrom dims (i + 1) idx' from rfl]
    by_cases hd : i ∈ dims
    · simp only [if_pos hd]
      rw [show bcastIdx (1 :: reducedShapeFrom dims (i + 1) shape') (x :: idx') =
        (if (1 : Nat) = 1 then 0 else x) :: bcastIdx (reducedShapeFrom dims (i + 1) shape') idx'
        from rfl, ih]
      simp
    · simp only [if_neg hd]
      rw [show bcastIdx (n :: reducedShapeFrom dims (i + 1) shape') (x :: idx') =
        (if n = 1 then 0 else x) :: bcastIdx (reducedShapeFrom dims (i + 1) shape') idx'
        from rfl, ih]
      by_cases h1 : n = 1
      · subst h1
        have hx0 : x = 0 := by omega
        simp [hx0]
      · simp [h1]

theorem bcastIdx_reduced (dims : List Nat) {shape idx : List Nat}
    (h : List.Forall₂ (· < ·) idx shape) :
    bcastIdx (reducedShape dims shape) idx = zeroAxes dims idx :=
  bcastIdx_reducedFrom dims h 0

theorem sum_if_const {β : Type} (c : ℚ) (p : β → Prop) [DecidablePred p] :
    ∀ (l : List β) (f : β → ℚ), (∀ x ∈ l, f x = if p x then c else 0) →
      (l.map f).sum = c * (((l.filter fun x => decide (p x)).length : ℚ)) := by
  intro l
  induction l with
  | nil => intro f _; simp
  | cons x l' ih =>
    intro f hf
    rw [List.map_cons, List.sum_cons, hf x (List.mem_cons_self _ _),
      ih f fun y hy => hf y (List.mem_cons_of_mem _ hy)]
    by_cases hp : p x
    · rw [if_pos hp, List.filter_cons, if_pos (by simpa using hp), List.length_cons]
      push_cast
      ring
    · rw [if_neg hp, List.filter_cons, if_neg (by simpa using hp)]
      ring

theorem ia3Denominator_eq_count (previous : Tensor) (dims : List Nat) (r : List Nat) :
    (ia3Denominator previous dims).data r = ((nonzeroCount previous dims r : Nat) : ℚ) := by
  show (((tensorIndices previous.shape).filter fun j => decide (zeroAxes dims j = r)).map
      fun j => if previous.data j = 0 then 0 else 1).sum = _
  rw [sum_if_const 1 (fun j => previous.data j ≠ 0) _ _ ?_]
  · rw [one_mul]
    rfl
  · intro j _
    by_cases hj : previous.data j = 0 <;> simp [hj]

theorem ia3_calc_value (previous new : Tensor) (dims : List Nat) (v : List Nat → ℚ)
    (hs : new.shape = previous.shape)
    (hv : ∀ idx ∈ tensorIndices previous.shape,
      new.data idx = previous.data idx * v (zeroAxes dims idx)) :
    ∀ idx ∈ tensorIndices previous.shape,
      (calculate_update new previous dims).data idx =
        if ((nonzeroCount previous dims (zeroAxes dims idx) : Nat) : ℚ) = 0 then 0
        else v (zeroAxes dims idx) := by
  intro idx hidx
  have hf : List.Forall₂ (· < ·) idx previous.shape := (mem_tensorIndices_iff _ _).mp hidx
  have hb1 : bcastIdx previous.shape idx = idx := bcastIdx_self hf
  have hred : bcastIdx (reducedShape dims previous.shape) idx = zeroAxes dims idx :=
    bcastIdx_reduced dims hf
  have hidxG : idx ∈ (tensorIndices previous.shape).filter
      fun j => decide (zeroAxes dims j = zeroAxes dims idx) :=
    List.mem_filter.mpr ⟨hidx, by simp⟩
  have hmul : ∀ j ∈ (tensorIndices previous.shape).filter
      (fun j => decide (zeroAxes dims j = zeroAxes dims idx)),
      (ia3Multiplier new previous).data j =
        if previous.data j ≠ 0 then v (zeroAxes dims idx) else 0 := by
    intro j hj
    obtain ⟨hjmem, hjz⟩ := List.mem_filter.mp hj
    have hjz' : zeroAxes dims j = zeroAxes dims idx := by simpa using hjz
    have hbj : bcastIdx previous.shape j = j :=
      bcastIdx_self ((mem_tensorIndices_iff _ _).mp hjmem)
    show (if (if previous.data (bcastIdx previous.shape j) = 0 then (0 : ℚ) else 1) ≠ 0 then
        new.data (bcastIdx new.shape j) / previous.data (bcastIdx previous.shape j)
      else 0) = _
    rw [hs, hbj]
    by_cases hz : previous.data j = 0
    · simp [hz]
    · rw [if_neg hz, if_pos (by norm_num : (1 : ℚ) ≠ 0), if_pos hz,
        hv j hjmem, hjz', mul_div_cancel_left₀ _ hz]
  have hden := ia3Denominator_eq_count previous dims (zeroAxes dims idx)
  have hX1b : bcastIdx (sumAxes dims (ia3Multiplier new previous)).shape idx =
      zeroAxes dims idx := by
    show bcastIdx (reducedShape dims new.shape) idx = _
    rw [hs]
    exact hred
  have hX2b : bcastIdx (ia3Denominator previous dims).shape idx = zeroAxes dims idx := hred
  have hX1val : (sumAxes dims (ia3Multiplier new previous)).data (zeroAxes dims idx) =
      v (zeroAxes dims idx) * ((nonzeroCount previous dims (zeroAxes dims idx) : Nat) : ℚ) := by
    show (((tensorIndices (ia3Multiplier new previous).shape).filter
        fun j => decide (zeroAxes dims j = zeroAxes dims idx)).map
        (ia3Multiplier new previous).data).sum = _
    rw [show (ia3Multiplier new previous).shape = new.shape from rfl, hs,
      sum_if_const (v (zeroAxes dims idx)) (fun j => previous.data j ≠ 0) _ _ hmul]
    rfl
  have hfinal : (calculate_update new previous dims).data idx =
      if ((nonzeroCount previous dims (zeroAxes dims idx) : Nat) : ℚ) = 0 then 0
      else v (zeroAxes dims idx) := by
    show (if (neqZeroMask (ia3Denominator previous dims)).data
          (bcastIdx (neqZeroMask (ia3Denominator previous dims)).shape idx) ≠ 0 then
        (sumAxes dims (ia3Multiplier new previous)).data
            (bcastIdx (sumAxes dims (ia3Multiplier new previous)).shape idx) /
          (ia3Denominator previous dims).data
            (bcastIdx (ia3Denominator previous dims).shape idx)
      else 0) = _
    rw [show (neqZeroMask (ia3Denominator previous dims)).shape =
        (ia3Denominator previous dims).shape from rfl, hX2b, hX1b,
      show (neqZeroMask (ia3Denominator previous dims)).data (zeroAxes dims idx) =
        (if (ia3Denominator previous dims).data (zeroAxes dims idx) = 0 then (0 : ℚ) else 1)
        from rfl, hX1val, hden]
    by_cases hc : ((nonzeroCount previous dims (zeroAxes dims idx) : Nat) : ℚ) = 0
    · rw [if_pos hc, hc]
      simp
    · rw [if_neg hc, if_neg hc, if_pos (by norm_num : (1 : ℚ) ≠ 0),
        mul_div_cancel_right₀ _ hc]
  exact hfinal

theorem ia3_apply_calculate_eq (previous new : Tensor) (dims : List Nat) (v : List Nat → ℚ)
    (hs : new.shape = previous.shape)
    (hv : ∀ idx ∈ tensorIndices previous.shape,
      new.data idx = previous.data idx * v (zeroAxes dims idx)) :
    ∀ idx ∈ tensorIndices previous.shape,
      (apply_update (calculate_update new previous dims) previous).data idx = new.data idx := by
  intro idx hidx
  have hf : List.Forall₂ (· < ·) idx previous.shape := (mem_tensorIndices_iff _ _).mp hidx
  have hb1 : bcastIdx previous.shape idx = idx := bcastIdx_self hf
  have hidxG : idx ∈ (tensorIndices previous.shape).filter
      fun j => decide (zeroAxes dims j = zeroAxes dims idx) :=
    List.mem_filter.mpr ⟨hidx, by simp⟩
  have hfinal := ia3_calc_value previous new dims v hs hv idx hidx
  have happly : (apply_update (calculate_update new previous dims) previous).data idx =
      previous.data (bcastIdx previous.shape idx) *
        (calculate_update new previous dims).data
          (bcastIdx (calculate_update new previous dims).shape idx) := rfl
  rw [happly, hb1, show (calculate_update new previous dims).shape = new.shape from rfl,
    hs, hb1, hfinal]
  by_cases hc0 : nonzeroCount previous dims (zeroAxes dims idx) = 0
  · have hnil : ((tensorIndices previous.shape).filter
        (fun j => decide (zeroAxes dims j = zeroAxes dims idx))).filter
        (fun j => decide (previous.data j ≠ 0)) = [] :=
      List.length_eq_zero.mp hc0
    have hpz : previous.data idx = 0 := by
      by_contra hnz
      have : idx ∈ (((tensorIndices previous.shape).filter
          (fun j => decide (zeroAxes dims j = zeroAxes dims idx))).filter
          (fun j => decide (previous.data j ≠ 0))) :=
        List.mem_filter.mpr ⟨hidxG, by simpa using hnz⟩
      rw [hnil] at this
      cases this
    rw [if_pos (by rw [hc0]; norm_num), hpz, zero_mul, hv idx hidx, hpz, zero_mul]
  · rw [if_neg (by simpa using hc0), hv idx hidx]

theorem ia3_s3_multiplier_hv :
    ∀ idx ∈ tensorIndices iaPrev.shape,
      iaNew.data idx = iaPrev.data idx * (fun _ : List Nat => (2 : ℚ)) (zeroAxes [1] idx) := by
  intro idx h
  have htI : tensorIndices iaPrev.shape = [[0, 0], [0, 1], [1, 0], [1, 1]] := by decide
  rw [htI] at h
  fin_cases h <;> norm_num [iaNew, iaPrev]

theorem ia3_s3_calc_data :
    ∀ idx ∈ tensorIndices [2, 2], (calculate_update iaNew iaPrev [1]).data idx = 2 := by
  intro idx h
  have h' : idx ∈ tensorIndices iaPrev.shape := h
  rw [ia3_calc_value iaPrev iaNew [1] (fun _ => 2) rfl ia3_s3_multiplier_hv idx h']
  have htI : tensorIndices iaPrev.shape = [[0, 0], [0, 1], [1, 0], [1, 1]] := by decide
  rw [htI] at h'
  fin_cases h' <;>
    norm_num [nonzeroCount, iaPrev, tensorIndices, zeroAxes, zeroAxesFrom, List.filter]

/-- C3: counterexample.  On the spec's S3 inputs, `calculate_update` does not
return the record `{ia3: [[2],[2]]}`: the second `np.divide` writes into
`out=np.zeros(parameter.shape)`, so the stored array has the full shape
`(2, 2)` — the column multiplier broadcast across both columns — not the
keepdims shape `(2, 1)` of `[[2],[2]]`. -/
theorem ia3_s3_record_counterexample :
    (calculate_update iaNew iaPrev [1]).shape = [2, 2] ∧
    (calculate_update iaNew iaPrev [1]).shape ≠ [2, 1] ∧
    (calculate_update iaNew iaPrev [1]).data [0, 1] = 2 :=
  ⟨rfl, by decide, ia3_s3_calc_data [0, 1] (by decide)⟩

/-- C3 (amended): for same-shape tensors with `new = previous ⊙ v`, `v`
broadcast over `broadcast_dims`, applying the calculated ia3 update to
`previous` reproduces `new` exactly (hence within any (atol, rtol)); on the
S3 inputs the returned record is the full-shape array `[[2,2],[2,2]]`
(entry 2 at every index of shape `[2,2]`), and applying it to `previous`
yields `[[4,8],[12,16]]`. -/
theorem ia3_round_trip_amended :
    (∀ (previous new : Tensor) (dims : List Nat) (v : List Nat → ℚ),
      new.shape = previous.shape →
      (∀ idx ∈ tensorIndices previous.shape,
        new.data idx = previous.data idx * v (zeroAxes dims idx)) →
      ∀ idx ∈ tensorIndices previous.shape,
        (apply_update (calculate_update new previous dims) previous).data idx =
          new.data idx) ∧
    ((calculate_update iaNew iaPrev [1]).shape = [2, 2] ∧
      (∀ idx ∈ tensorIndices [2, 2], (calculate_update iaNew iaPrev [1]).data idx = 2) ∧
      (∀ idx ∈ tensorIndices [2, 2],
        (apply_update (calculate_update iaNew iaPrev [1]) iaPrev).data idx =
          iaNew.data idx)) :=
  ⟨ia3_apply_calculate_eq, rfl, ia3_s3_calc_data,
    fun idx h => ia3_apply_calculate_eq iaPrev iaNew [1] (fun _ => 2) rfl
      ia3_s3_multiplier_hv idx h⟩

/-- Witness for C3's amended theorem: the round trip applied to the S3
inputs at index (0,0). -/
theorem ia3_round_trip_amended_witness :
    (apply_update (calculate_update iaNew iaPrev [1]) iaPrev).data [0, 0] =
      iaNew.data [0, 0] :=
  ia3_round_trip_amended.1 iaPrev iaNew [1] (fun _ => 2) rfl
    ia3_s3_multiplier_hv [0, 0] (by decide)

/-- C7: `calculate_update` never divides by zero.  At every position where
`previous` is 0 the masked elementwise divide leaves the multiplier 0; the
per-group denominator is the count of nonzero `previous` entries in the
broadcast group (not the group size); and a group whose count is 0 gets an
ia3 entry of 0 from `out`'s zeros. -/
theorem ia3_no_division_by_zero (parameter previous : Tensor) (dims : List Nat)
    (hs : parameter.shape = previous.shape) :
    ∀ idx ∈ tensorIndices previous.shape,
      (previous.data idx = 0 → (ia3Multiplier parameter previous).data idx = 0) ∧
      (ia3Denominator previous dims).data (zeroAxes dims idx) =
        ((nonzeroCount previous dims (zeroAxes dims idx) : Nat) : ℚ) ∧
      (nonzeroCount previous dims (zeroAxes dims idx) = 0 →
        (calculate_update parameter previous dims).data idx = 0) := by
  intro idx hidx
  have hf : List.Forall₂ (· < ·) idx previous.shape := (mem_tensorIndices_iff _ _).mp hidx
  have hb1 : bcastIdx previous.shape idx = idx := bcastIdx_self hf
  have hred : bcastIdx (reducedShape dims previous.shape) idx = zeroAxes dims idx :=
    bcastIdx_reduced dims hf
  refine ⟨?_, ia3Denominator_eq_count previous dims _, ?_⟩
  · intro hz
    show (if (if previous.data (bcastIdx previous.shape idx) = 0 then (0 : ℚ) else 1) ≠ 0 then
        parameter.data (bcastIdx parameter.shape idx) /
          previous.data (bcastIdx previous.shape idx)
      else 0) = 0
    rw [hb1, hz]
    norm_num
  · intro hc
    show (if (neqZeroMask (ia3Denominator previous dims)).data
          (bcastIdx (neqZeroMask (ia3Denominator previous dims)).shape idx) ≠ 0 then
        (sumAxes dims (ia3Multiplier parameter previous)).data
            (bcastIdx (sumAxes dims (ia3Multiplier parameter previous)).shape idx) /
          (ia3Denominator previous dims).data
            (bcastIdx (ia3Denominator previous dims).shape idx)
      else 0) = 0
    rw [show (neqZeroMask (ia3Denominator previous dims)).shape =
        reducedShape dims previous.shape from rfl, hred,
      show (neqZeroMask (ia3Denominator previous dims)).data (zeroAxes dims idx) =
        (if (ia3Denominator previous dims).data (zeroAxes dims idx) = 0 then (0 : ℚ) else 1)
        from rfl,
      ia3Denominator_eq_count, hc]
    norm_num

/-- Witness for C7: on `previous = [0, 3]` (a zero at index 0), the
multiplier at index 0 is 0 rather than a division by zero. -/
theorem ia3_no_division_by_zero_witness :
    (ia3Multiplier iaParamW iaPrevW).data [0] = 0 :=
  ((ia3_no_division_by_zero iaParamW iaPrevW [0] rfl [0] (by decide)).1) rfl

end GitTheta
